import Mathlib

/-!
Verification development for the obsidian paste-image-rename-convert-upload
plugin.  Strings of the TypeScript source are modelled as `List Char`;
JavaScript string operations are modelled element-wise.  The Unicode letter
class of the filename regex and the Unicode branch of `toLowerCase` are
modelled over the ASCII range (`Char.isAlpha`, `Char.toLower`); none of the
statements below depends on the extension of the letter class.
-/

/-- The set matched by the JavaScript regex class backslash-s and trimmed by
`String.prototype.trim`: tab, LF, VT, FF, CR, space, NBSP, Ogham space mark,
the en-quad .. hair-space block, LS, PS, narrow NBSP, medium mathematical
space, ideographic space and BOM. -/
def isJsWhitespace (c : Char) : Bool :=
  let n := c.toNat
  n == 9 || n == 10 || n == 11 || n == 12 || n == 13 || n == 32 || n == 160 ||
  n == 5760 || (decide (8192 ≤ n) && decide (n ≤ 8202)) || n == 8232 || n == 8233 ||
  n == 8239 || n == 8287 || n == 12288 || n == 65279

/-- The set matched by the JavaScript regex class backslash-d: the ASCII
digits 0..9. -/
def isAsciiDigit (c : Char) : Bool :=
  decide (48 ≤ c.toNat) && decide (c.toNat ≤ 57)

/-- Code points of the punctuation allow-list of `filenameNotAllowedChars` in
`src/utils.ts` line 74: tilde, backquote, bang, at, dollar, ampersand, star,
parens, dash, underscore, equals, plus, braces, semicolon, single and double
quote, comma, angle brackets, dot, question mark and space. -/
def filenameAllowedPunct : List Nat :=
  [126, 96, 33, 64, 36, 38, 42, 40, 41, 45, 95, 61, 43, 123, 125, 59, 39,
   34, 44, 60, 46, 62, 63, 32]

/-- A character survives the `replace(filenameNotAllowedChars, "")` step of
`sanitizer.filename` (`src/utils.ts` line 74): a letter, an ASCII digit, or a
punctuation character of the allow-list. -/
def filenameAllowedChar (c : Char) : Bool :=
  c.isAlpha || isAsciiDigit c || filenameAllowedPunct.contains c.toNat

/-- JavaScript `String.prototype.trim`: drop whitespace from both ends. -/
def jsTrim (s : List Char) : List Char :=
  ((s.dropWhile isJsWhitespace).reverse.dropWhile isJsWhitespace).reverse

namespace sanitizer

/-- `sanitizer.filename` from `src/utils.ts` lines 77-79: strip the
characters outside the allow-list, then trim surrounding whitespace. -/
def filename (s : List Char) : List Char :=
  jsTrim (s.filter filenameAllowedChar)

/-- `sanitizer.delimiter` from `src/utils.ts` lines 81-86: sanitize as a
filename and fall back to a dash when nothing is left. -/
def delimiter (s : List Char) : List Char :=
  let s' := filename s
  if s' = [] then '-' :: [] else s'

end sanitizer

/-- Decimal value of a digit string, as accumulated by a base-10 positional
read (the value JavaScript `parseInt(s, 10)` returns on an all-digit
string). -/
def digitsToNat (ds : List Char) : Nat :=
  ds.foldl (fun a c => a * 10 + (c.toNat - 48)) 0

/-- JavaScript `parseInt(s, 10)`: skip leading whitespace, read an optional
sign, then the longest digit run; `none` models the NaN result produced when
no digit is found.  Numbers are modelled as exact integers. -/
def parseIntDec (s : List Char) : Option Int :=
  let t := s.dropWhile isJsWhitespace
  let neg := t.headD ' ' = '-'
  let t2 := if t.headD ' ' = '-' ∨ t.headD ' ' = '+' then t.drop 1 else t
  let ds := t2.takeWhile isAsciiDigit
  if ds = [] then none
  else if neg then some (-(digitsToNat ds : Int)) else some (digitsToNat ds : Int)

/-- Decimal rendering of an integer, as interpolated by a template literal
for the integers produced in the dedup routine. -/
def intToChars (n : Int) : List Char :=
  if n < 0 then '-' :: Nat.toDigits 10 n.natAbs else Nat.toDigits 10 n.toNat

/-- JavaScript `String.prototype.lastIndexOf` restricted to a single
character; `none` models the -1 result. -/
def lastIndexOfChar (c : Char) : List Char → Option Nat
  | [] => none
  | a :: rest =>
    match lastIndexOfChar c rest with
    | some i => some (i + 1)
    | none => if a = c then some 0 else none

/-- `parseFileName` from `src/unnamed/part_000` lines 108-135: split a file
name at its last dot into stem and lower-cased extension; an empty input
gives two empty parts, a dotless input is all stem, a leading dot (hidden
file) gives an empty stem. -/
def parseFileName (fileName : List Char) : List Char × List Char :=
  if fileName = [] then ([], [])
  else
    match lastIndexOfChar '.' fileName with
    | none => (fileName, [])
    | some i =>
      if i = 0 then ([], (fileName.drop 1).map Char.toLower)
      else (fileName.take i, (fileName.drop (i + 1)).map Char.toLower)

/-- The plugin settings record (`src/unnamed/part_000` lines 58-71). -/
structure PluginSettings where
  imageNamePattern : List Char
  dupNumberAtStart : Bool
  dupNumberDelimiter : List Char
  dupNumberAlways : Bool
  autoRename : Bool
  handleAllAttachments : Bool
  excludeExtensionPattern : List Char
  disableRenameNotice : Bool
  pngToJpeg : Bool
  pngToWebp : Bool
  quality : List Char
deriving DecidableEq

/-- `DEFAULT_SETTINGS` from `src/unnamed/part_000` lines 73-85. -/
def DEFAULT_SETTINGS : PluginSettings where
  imageNamePattern :=
    (Char.ofNat 123 :: Char.ofNat 123 :: 'f' :: 'i' :: 'l' :: 'e' :: 'N' ::
     'a' :: 'm' :: 'e' :: Char.ofNat 125 :: Char.ofNat 125 :: [])
  dupNumberAtStart := false
  dupNumberDelimiter := ('-' :: [])
  dupNumberAlways := false
  autoRename := false
  handleAllAttachments := false
  excludeExtensionPattern := []
  disableRenameNotice := false
  pngToJpeg := false
  pngToWebp := false
  quality := ('0' :: '.' :: '8' :: [])

/-- `getActualExtension` from `src/unnamed/part_000` lines 89-103: lower-case
the extension and, for png only, redirect to webp or jpeg when the matching
conversion flag is on (webp checked first). -/
def getActualExtension (extension : List Char) (settings : PluginSettings) : List Char :=
  let ext := extension.map Char.toLower
  if ext = "png".toList then
    if settings.pngToWebp then "webp".toList
    else if settings.pngToJpeg then "jpeg".toList
    else ext
  else ext

/-- The fields of the host TFile object read by the dedup routine: the file
name with extension, and the extension alone. -/
structure TFile where
  name : List Char
  extension : List Char
deriving DecidableEq

namespace path

/-- `path.basename` from `src/utils.ts` lines 62-65: the part after the last
slash (JavaScript split keeps a trailing empty segment). -/
def basename (fullpath : List Char) : List Char :=
  (fullpath.splitOn '/').getLastD []

end path

/-- The match of `dupNameRegex` (`src/unnamed/part_000` lines 573-575)
against a sibling name, returning the captured digit group.  The stem and the
delimiter are regex-escaped in the source and therefore match literally; the
extension is interpolated unescaped, which this model also treats literally —
the two coincide whenever the extension contains no regex metacharacter,
which holds for every extension used in the statements below.  Both patterns
are anchored at both ends, so a match forces the capture to be exactly the
residue of the sibling after the fixed literal parts. -/
def dupRegexCapture (atStart : Bool) (stem delim ext sibling : List Char) : Option (List Char) :=
  if atStart then
    -- number at start: ^(digits)delim stem.ext$
    let suf := delim ++ stem ++ '.' :: ext
    let mid := sibling.take (sibling.length - suf.length)
    if sibling = mid ++ suf ∧ mid ≠ [] ∧ mid.all isAsciiDigit = true then some mid
    else none
  else
    -- number at end: ^stem delim(digits).ext$
    let pre := stem ++ delim
    let suf := '.' :: ext
    let mid := (sibling.drop pre.length).take (sibling.length - pre.length - suf.length)
    if sibling = pre ++ mid ++ suf ∧ mid ≠ [] ∧ mid.all isAsciiDigit = true then some mid
    else none

/-- The sibling loop of `deduplicateNewName` (`src/unnamed/part_000` lines
580-603), processed in list order: skip the file itself (by name equality),
flag an exact case-sensitive collision, and otherwise collect the integer
parse of the captured digit group when the duplicate-name regex matches (a
NaN parse, `none` here, is skipped).  Returns (isNewNameExist,
dupNameNumbers). -/
def scanSiblings (fileName exact : List Char) (atStart : Bool) (stem delim ext : List Char) : List (List Char) → Bool × List Int
  | [] => (false, [])
  | sp :: rest =>
    let sib := path.basename sp
    let r := scanSiblings fileName exact atStart stem delim ext rest
    if fileName = sib then r
    else if sib = exact then (true, r.2)
    else
      match dupRegexCapture atStart stem delim ext sib with
      | some ds =>
        match parseIntDec ds with
        | some n => (r.1, n :: r.2)
        | none => r
      | none => r

/-- `actualExtension` of `deduplicateNewName` (`src/unnamed/part_000` line
556): the extension parsed from the candidate name, or the current extension
of the file when the candidate has none. -/
def dedupActualExtension (newName : List Char) (file : TFile) : List Char :=
  if (parseFileName newName).2 = [] then file.extension else (parseFileName newName).2

/-- `exactFileName` of `deduplicateNewName` (`src/unnamed/part_000` line
560): stem dot extension. -/
def exactTargetName (newName : List Char) (file : TFile) : List Char :=
  (parseFileName newName).1 ++ '.' :: dedupActualExtension newName file

/-- The scan of `deduplicateNewName` with its arguments filled in from the
candidate name, the file and the settings. -/
def dedupScan (settings : PluginSettings) (newName : List Char) (file : TFile) (siblings : List (List Char)) : Bool × List Int :=
  scanSiblings file.name (exactTargetName newName file) settings.dupNumberAtStart
    (parseFileName newName).1 settings.dupNumberDelimiter
    (dedupActualExtension newName file) siblings

/-- `Math.max` over a list of numbers, used on a non-empty list only
(`src/unnamed/part_000` line 610); the empty case is given an arbitrary
value. -/
def maxIntList : List Int → Int
  | [] => 0
  | n :: rest => rest.foldl max n

/-- The numbered name built at `src/unnamed/part_000` lines 613-615: the
number is glued with the delimiter at the start or at the end according to
the policy. -/
def numberedName (settings : PluginSettings) (newName : List Char) (file : TFile) (n : Int) : List Char :=
  if settings.dupNumberAtStart then
    intToChars n ++ settings.dupNumberDelimiter ++ (parseFileName newName).1 ++
      '.' :: dedupActualExtension newName file
  else
    (parseFileName newName).1 ++ settings.dupNumberDelimiter ++ intToChars n ++
      '.' :: dedupActualExtension newName file

/-- The result record of `deduplicateNewName` (`NameObj` in
`src/utils.ts` lines 126-130). -/
structure NameObj where
  name : List Char
  stem : List Char
  extension : List Char
deriving DecidableEq

/-- `deduplicateNewName` from `src/unnamed/part_000` lines 544-627, with the
directory listing passed explicitly as the list of sibling paths: when the
exact name collides or numbering is forced, emit max-collected-plus-one (or
1 when nothing was collected); otherwise emit the exact name. -/
def deduplicateNewName (settings : PluginSettings) (newName : List Char) (file : TFile) (siblings : List (List Char)) : NameObj :=
  let scanned := dedupScan settings newName file siblings
  let finalName :=
    if scanned.1 || settings.dupNumberAlways then
      numberedName settings newName file
        (if scanned.2.length > 0 then maxIntList scanned.2 + 1 else 1)
    else exactTargetName newName file
  { name := finalName
    stem := (parseFileName newName).1
    extension := dedupActualExtension newName file }

/-- One member of the character class of the `meaninglessRegex` built by
`isNameMeaningful`: a literal character, a range formed by a dash between
two literals, or the backslash-s escape appended by the source. -/
inductive ClassItem where
  | lit : Char → ClassItem
  | range : Char → Char → ClassItem
  | spaceEsc : ClassItem
deriving DecidableEq

/-- Parse the delimiter characters interpolated into the class
`[delimiter\s]` of `isNameMeaningful` (`src/unnamed/part_000` line 141) the
way the JavaScript regex engine reads a character class: a dash between two
characters forms a range (out-of-order ranges are a syntax error, `none`
here); a dash at either end, in particular a dash directly followed by the
trailing backslash-s escape, stays literal.  Sanitized delimiters contain no
backslash, bracket or caret, so no other class syntax can occur. -/
def parseClassItems : List Char → Option (List ClassItem)
  | [] => some []
  | c :: [] => some (ClassItem.lit c :: [])
  | c1 :: c2 :: [] => some (ClassItem.lit c1 :: ClassItem.lit c2 :: [])
  | c1 :: c2 :: c3 :: rest =>
    if c2 = '-' then
      if c1.toNat ≤ c3.toNat then
        (parseClassItems rest).map (fun items => ClassItem.range c1 c3 :: items)
      else none
    else
      (parseClassItems (c2 :: c3 :: rest)).map (fun items => ClassItem.lit c1 :: items)

/-- Whether a character is matched by one class member. -/
def itemMatches (c : Char) : ClassItem → Bool
  | ClassItem.lit d => c = d
  | ClassItem.range lo hi => decide (lo.toNat ≤ c.toNat) && decide (c.toNat ≤ hi.toNat)
  | ClassItem.spaceEsc => isJsWhitespace c

/-- `isNameMeaningful` from `src/unnamed/part_000` lines 140-143: delete
every character matched by the class `[delimiter\s]` and test the result
against the empty string; `none` models the exception thrown when the class
is a syntax error. -/
def isNameMeaningful (name delimiter : List Char) : Option Bool :=
  (parseClassItems delimiter).map (fun items =>
    let allItems := items ++ ClassItem.spaceEsc :: []
    decide (name.filter (fun c => !(allItems.any (itemMatches c))) ≠ []))

/-- The meaningfulness test in the words of the spec: a stem is meaningful
exactly when removing the delimiter characters themselves and whitespace
leaves it non-empty.  Stated for comparison with `isNameMeaningful`. -/
def isNameMeaningfulSpec (name delimiter : List Char) : Bool :=
  decide (name.filter (fun c => !(decide (c ∈ delimiter) || isJsWhitespace c)) ≠ [])

theorem parseClassItems_all_lit :
    ∀ l : List Char, (l.drop 1).dropLast.all (fun c => c ≠ '-') = true →
      parseClassItems l = some (l.map ClassItem.lit)
  | [], _ => rfl
  | _ :: [], _ => rfl
  | _ :: _ :: [], _ => rfl
  | c1 :: c2 :: c3 :: rest, h => by
    simp only [List.drop_succ_cons, List.drop_zero, List.dropLast_cons₂,
      List.all_cons, Bool.and_eq_true, decide_eq_true_eq] at h
    obtain ⟨hc2, htail⟩ := h
    have htail' : ((c2 :: c3 :: rest).drop 1).dropLast.all (fun c => c ≠ '-') = true := by
      simp only [List.drop_succ_cons, List.drop_zero]
      exact htail
    have ih := parseClassItems_all_lit (c2 :: c3 :: rest) htail'
    simp only [parseClassItems, if_neg hc2, ih, Option.map_some', List.map_cons]

theorem map_lit_any (d : List Char) (c : Char) :
    (d.map ClassItem.lit).any (itemMatches c) = decide (c ∈ d) := by
  induction d with
  | nil => simp
  | cons a t ih => simp [itemMatches, ih, List.mem_cons]

/-- C4, counterexample: the delimiter 0-9 survives sanitization unchanged
and is non-empty, yet the stem 5 — which still has content after removing
the delimiter characters and whitespace — is judged not meaningful, because
the interpolated dash forms the regex range 0-9 which swallows every
digit. -/
theorem isNameMeaningful_range_counterexample :
    sanitizer.filename ('0' :: '-' :: '9' :: []) = '0' :: '-' :: '9' :: [] ∧
    ('0' :: '-' :: '9' :: [] : List Char) ≠ [] ∧
    isNameMeaningful ('5' :: []) ('0' :: '-' :: '9' :: []) = some false ∧
    isNameMeaningfulSpec ('5' :: []) ('0' :: '-' :: '9' :: []) = true := by decide

/-- C4, amended: for every non-empty sanitized delimiter in which no dash
stands between two other characters (so no character range can form inside
the regex class), the meaningfulness check rejects exactly the stems that
reduce to the empty string after removing delimiter characters and
whitespace. -/
theorem isNameMeaningful_amended (name delimiter : List Char)
    (hne : delimiter ≠ [])
    (hsan : delimiter.all filenameAllowedChar = true)
    (hdash : (delimiter.drop 1).dropLast.all (fun c => c ≠ '-') = true) :
    isNameMeaningful name delimiter = some (isNameMeaningfulSpec name delimiter) := by
  rw [isNameMeaningful, parseClassItems_all_lit delimiter hdash]
  simp only [Option.map_some']
  congr 1
  rw [isNameMeaningfulSpec]
  have hpt : ∀ c ∈ name,
      (!((delimiter.map ClassItem.lit ++ ClassItem.spaceEsc :: []).any (itemMatches c))) =
      (!(decide (c ∈ delimiter) || isJsWhitespace c)) := by
    intro c _
    simp [List.any_append, itemMatches, map_lit_any]
  rw [List.filter_congr hpt]

/-- C4, witness for the amended statement at the default dash delimiter. -/
theorem isNameMeaningful_amended_witness :
    isNameMeaningful ('a' :: '-' :: 'b' :: []) ('-' :: []) =
      some (isNameMeaningfulSpec ('a' :: '-' :: 'b' :: []) ('-' :: [])) ∧
    isNameMeaningfulSpec ('a' :: '-' :: 'b' :: []) ('-' :: []) = true :=
  ⟨isNameMeaningful_amended ('a' :: '-' :: 'b' :: []) ('-' :: [])
      (by decide) (by decide) (by decide), by decide⟩

/-- C7: getActualExtension lower-cases the extension and redirects only png,
to webp when the webp flag is set, to jpeg when the jpeg flag is the only
one set, and keeps the lower-cased extension in every other case. -/
theorem getActualExtension_cases (extension : List Char) (settings : PluginSettings) :
    (extension.map Char.toLower = "png".toList → settings.pngToWebp = true →
      getActualExtension extension settings = "webp".toList) ∧
    (extension.map Char.toLower = "png".toList → settings.pngToWebp = false →
      settings.pngToJpeg = true →
      getActualExtension extension settings = "jpeg".toList) ∧
    ((extension.map Char.toLower ≠ "png".toList ∨
        (settings.pngToWebp = false ∧ settings.pngToJpeg = false)) →
      getActualExtension extension settings = extension.map Char.toLower) := by
  refine ⟨fun h hw => ?_, fun h hw hj => ?_, fun h => ?_⟩ <;>
    simp only [getActualExtension]
  · rw [if_pos h, if_pos hw]
  · rw [if_pos h, if_neg (by simp [hw]), if_pos hj]
  · rcases h with h | ⟨hw, hj⟩
    · rw [if_neg h]
    · by_cases hp : extension.map Char.toLower = "png".toList
      · rw [if_pos hp, if_neg (by simp [hw]), if_neg (by simp [hj])]
      · rw [if_neg hp]

/-- C7, witness: an upper-case PNG source with the webp flag set becomes
webp. -/
theorem getActualExtension_cases_witness :
    getActualExtension ('P' :: 'N' :: 'G' :: []) { DEFAULT_SETTINGS with pngToWebp := true } =
      "webp".toList :=
  (getActualExtension_cases ('P' :: 'N' :: 'G' :: [])
    { DEFAULT_SETTINGS with pngToWebp := true }).1 (by decide) rfl

/-- C6: sanitizer.delimiter never returns the empty string, and collapses to
a dash exactly when sanitizing the input leaves nothing. -/
theorem sanitizer_delimiter_nonempty (s : List Char) :
    sanitizer.delimiter s ≠ [] ∧
    (sanitizer.filename s = [] → sanitizer.delimiter s = '-' :: []) := by
  constructor
  · unfold sanitizer.delimiter
    by_cases h : sanitizer.filename s = [] <;> simp [h]
  · intro h
    unfold sanitizer.delimiter
    simp [h]

/-- C6, witness: a slash sanitizes to nothing and the delimiter falls back
to a dash. -/
theorem sanitizer_delimiter_nonempty_witness :
    sanitizer.delimiter ('/' :: []) ≠ [] ∧ sanitizer.delimiter ('/' :: []) = '-' :: [] :=
  ⟨(sanitizer_delimiter_nonempty ('/' :: [])).1,
   (sanitizer_delimiter_nonempty ('/' :: [])).2 (by decide)⟩

/-- C3, counterexample: with the prefix policy, delimiter dash and
always-number off, siblings 2-foo.png and candidate foo.png, the code finds
no exact collision and returns foo.png unchanged, not 3-foo.png. -/
theorem dedup_prefix_example_counterexample :
    (deduplicateNewName { DEFAULT_SETTINGS with dupNumberAtStart := true }
        ("foo.png".toList) { name := "bar.png".toList, extension := "png".toList }
        ["2-foo.png".toList]).name = "foo.png".toList ∧
    ("foo.png".toList : List Char) ≠ "3-foo.png".toList := by decide

/-- C3, amended: with siblings 2-foo.png and candidate foo.png under the
prefix policy, the result is foo.png when always-number is off (no exact
collision, name unchanged), and 3-foo.png when always-number forces the
numbered branch. -/
theorem dedup_prefix_example_amended :
    (deduplicateNewName { DEFAULT_SETTINGS with dupNumberAtStart := true }
        ("foo.png".toList) { name := "bar.png".toList, extension := "png".toList }
        ["2-foo.png".toList]).name = "foo.png".toList ∧
    (deduplicateNewName
        { DEFAULT_SETTINGS with dupNumberAtStart := true, dupNumberAlways := true }
        ("foo.png".toList) { name := "bar.png".toList, extension := "png".toList }
        ["2-foo.png".toList]).name = "3-foo.png".toList := by decide

theorem dropWhile_idem (p : Char → Bool) :
    ∀ l : List Char, (l.dropWhile p).dropWhile p = l.dropWhile p
  | [] => rfl
  | a :: l => by
    by_cases h : p a
    · rw [List.dropWhile_cons_of_pos h]
      exact dropWhile_idem p l
    · rw [List.dropWhile_cons_of_neg h, List.dropWhile_cons_of_neg h]

theorem dropWhile_eq_self_of_append (p : Char → Bool) (x y t : List Char)
    (hx : x.dropWhile p = x) (hxy : x = y ++ t) : y.dropWhile p = y := by
  cases y with
  | nil => rfl
  | cons b u =>
    cases x with
    | nil => exact absurd hxy.symm (by simp)
    | cons a v =>
      rw [List.cons_append] at hxy
      have hab : a = b := (List.cons.injEq a v b (u ++ t)).mp hxy |>.1
      by_cases hpb : p b
      · exfalso
        have hpa : p a := hab ▸ hpb
        rw [List.dropWhile_cons_of_pos hpa] at hx
        have hlen := (List.dropWhile_sublist (l := v) p).length_le
        rw [hx] at hlen
        simp at hlen
      · rw [List.dropWhile_cons_of_neg hpb]

theorem mem_jsTrim {c : Char} {l : List Char} (h : c ∈ jsTrim l) : c ∈ l := by
  unfold jsTrim at h
  rw [List.mem_reverse] at h
  have h1 := List.dropWhile_subset (l := (l.dropWhile isJsWhitespace).reverse) isJsWhitespace h
  rw [List.mem_reverse] at h1
  exact List.dropWhile_subset isJsWhitespace h1

theorem jsTrim_idem (l : List Char) : jsTrim (jsTrim l) = jsTrim l := by
  unfold jsTrim
  have hAfix : (l.dropWhile isJsWhitespace).dropWhile isJsWhitespace
      = l.dropWhile isJsWhitespace := dropWhile_idem isJsWhitespace l
  obtain ⟨t, ht⟩ :
      (l.dropWhile isJsWhitespace).reverse.dropWhile isJsWhitespace <:+
        (l.dropWhile isJsWhitespace).reverse :=
    List.dropWhile_suffix isJsWhitespace
  have hxy : l.dropWhile isJsWhitespace =
      ((l.dropWhile isJsWhitespace).reverse.dropWhile isJsWhitespace).reverse ++ t.reverse := by
    have := congrArg List.reverse ht
    simpa [List.reverse_append] using this.symm
  have hstep1 : (((l.dropWhile isJsWhitespace).reverse.dropWhile isJsWhitespace).reverse).dropWhile
      isJsWhitespace =
      ((l.dropWhile isJsWhitespace).reverse.dropWhile isJsWhitespace).reverse :=
    dropWhile_eq_self_of_append isJsWhitespace _ _ _ hAfix hxy
  rw [hstep1, List.reverse_reverse,
    dropWhile_idem isJsWhitespace (l.dropWhile isJsWhitespace).reverse]

/-- C5: sanitizer.filename is idempotent — stripping the disallowed
characters and trimming a second time changes nothing. -/
theorem sanitizer_filename_idempotent (s : List Char) :
    sanitizer.filename (sanitizer.filename s) = sanitizer.filename s := by
  unfold sanitizer.filename
  have hfix : (jsTrim (s.filter filenameAllowedChar)).filter filenameAllowedChar
      = jsTrim (s.filter filenameAllowedChar) := by
    rw [List.filter_eq_self]
    intro a ha
    exact List.of_mem_filter (mem_jsTrim ha)
  rw [hfix, jsTrim_idem]

theorem lastIndexOfChar_of_not_mem (c : Char) :
    ∀ s : List Char, c ∉ s → lastIndexOfChar c s = none
  | [], _ => rfl
  | a :: rest, h => by
    have h1 : c ≠ a := fun e => h (e ▸ List.mem_cons_self a rest)
    have h2 : c ∉ rest := fun m => h (List.mem_cons_of_mem a m)
    rw [lastIndexOfChar, lastIndexOfChar_of_not_mem c rest h2]
    exact if_neg (fun e => h1 e.symm)

theorem lastIndexOfChar_append (c : Char) :
    ∀ (stem rest : List Char), c ∉ rest →
      lastIndexOfChar c (stem ++ c :: rest) = some stem.length
  | [], rest, h => by
    rw [List.nil_append, lastIndexOfChar, lastIndexOfChar_of_not_mem c rest h, if_pos rfl]
    rfl
  | a :: stem, rest, h => by
    rw [List.cons_append, lastIndexOfChar, lastIndexOfChar_append c stem rest h]
    rfl

/-- C9: parseFileName totally splits at the last dot — empty input to two
empty parts, a dotless input entirely to the stem, and any input of the
shape stem ++ dot ++ rest with no further dot in rest to that stem and the
lower-cased rest (the hidden-file case being the empty stem). -/
theorem parseFileName_total_split (s : List Char) :
    (s = [] → parseFileName s = ([], [])) ∧
    ('.' ∉ s → parseFileName s = (s, [])) ∧
    (∀ stem rest, s = stem ++ '.' :: rest → '.' ∉ rest →
      parseFileName s = (stem, rest.map Char.toLower)) := by
  refine ⟨fun h => by rw [h]; rfl, fun h => ?_, fun stem rest hs hr => ?_⟩
  · rw [parseFileName]
    by_cases he : s = []
    · simp [he]
    · rw [if_neg he, lastIndexOfChar_of_not_mem '.' s h]
  · subst hs
    have hne : stem ++ '.' :: rest ≠ [] := by simp
    rw [parseFileName, if_neg hne, lastIndexOfChar_append '.' stem rest hr]
    cases stem with
    | nil => simp
    | cons a t =>
      have hlen : (a :: t).length ≠ 0 := by simp
      simp only [if_neg hlen]
      have h1 : List.take (a :: t).length (a :: t ++ '.' :: rest) = a :: t :=
        List.take_left (a :: t) ('.' :: rest)
      have h2 : List.drop ((a :: t).length + 1) (a :: t ++ '.' :: rest) = rest := by
        have hassoc : a :: t ++ '.' :: rest = ((a :: t) ++ ('.' :: [])) ++ rest := by simp
        rw [hassoc, List.drop_left' (by simp)]
      rw [h1, h2]

/-- C9, witness at the input a.PNG. -/
theorem parseFileName_total_split_witness :
    parseFileName ('a' :: '.' :: 'P' :: 'N' :: 'G' :: []) =
      ('a' :: [], ('P' :: 'N' :: 'G' :: []).map Char.toLower) :=
  (parseFileName_total_split ('a' :: '.' :: 'P' :: 'N' :: 'G' :: [])).2.2
    ('a' :: []) ('P' :: 'N' :: 'G' :: []) rfl (by decide)

section ScanLemmas

variable (fileName exact : List Char) (atStart : Bool) (stem delim ext : List Char)

theorem scanSiblings_cons_self (sp : List Char) (rest : List (List Char))
    (h : fileName = path.basename sp) :
    scanSiblings fileName exact atStart stem delim ext (sp :: rest) =
      scanSiblings fileName exact atStart stem delim ext rest := by
  simp only [scanSiblings, if_pos h]

theorem scanSiblings_cons_exact (sp : List Char) (rest : List (List Char))
    (h1 : fileName ≠ path.basename sp) (h2 : path.basename sp = exact) :
    scanSiblings fileName exact atStart stem delim ext (sp :: rest) =
      (true, (scanSiblings fileName exact atStart stem delim ext rest).2) := by
  simp only [scanSiblings, if_neg h1, if_pos h2]

theorem scanSiblings_cons_other (sp : List Char) (rest : List (List Char))
    (h1 : fileName ≠ path.basename sp) (h2 : path.basename sp ≠ exact) :
    scanSiblings fileName exact atStart stem delim ext (sp :: rest) =
      match (dupRegexCapture atStart stem delim ext (path.basename sp)).bind parseIntDec with
      | some n =>
        ((scanSiblings fileName exact atStart stem delim ext rest).1,
          n :: (scanSiblings fileName exact atStart stem delim ext rest).2)
      | none => scanSiblings fileName exact atStart stem delim ext rest := by
  simp only [scanSiblings, if_neg h1, if_neg h2]
  cases dupRegexCapture atStart stem delim ext (path.basename sp) with
  | none => rfl
  | some ds =>
    cases parseIntDec ds with
    | none => rfl
    | some n => rfl

theorem scanSiblings_fst_cons_other (sp : List Char) (rest : List (List Char))
    (h1 : fileName ≠ path.basename sp) (h2 : path.basename sp ≠ exact) :
    (scanSiblings fileName exact atStart stem delim ext (sp :: rest)).1 =
      (scanSiblings fileName exact atStart stem delim ext rest).1 := by
  rw [scanSiblings_cons_other fileName exact atStart stem delim ext sp rest h1 h2]
  cases hb : (dupRegexCapture atStart stem delim ext (path.basename sp)).bind parseIntDec with
  | none => rfl
  | some n => rfl

theorem scanSiblings_fst_iff :
    ∀ sibs : List (List Char),
      ((scanSiblings fileName exact atStart stem delim ext sibs).1 = true ↔
        ∃ sp ∈ sibs, path.basename sp ≠ fileName ∧ path.basename sp = exact)
  | [] => by simp [scanSiblings]
  | sp :: rest => by
    have ih := scanSiblings_fst_iff rest
    by_cases h1 : fileName = path.basename sp
    · rw [scanSiblings_cons_self fileName exact atStart stem delim ext sp rest h1, ih]
      simp only [List.mem_cons]
      constructor
      · rintro ⟨x, hx, hne, he⟩
        exact ⟨x, Or.inr hx, hne, he⟩
      · rintro ⟨x, hx | hx, hne, he⟩
        · subst hx
          exact absurd h1.symm hne
        · exact ⟨x, hx, hne, he⟩
    · by_cases h2 : path.basename sp = exact
      · rw [scanSiblings_cons_exact fileName exact atStart stem delim ext sp rest h1 h2]
        simp only [List.mem_cons]
        constructor
        · intro _
          exact ⟨sp, Or.inl rfl, fun e => h1 e.symm, h2⟩
        · intro _
          trivial
      · rw [scanSiblings_fst_cons_other fileName exact atStart stem delim ext sp rest h1 h2, ih]
        simp only [List.mem_cons]
        constructor
        · rintro ⟨x, hx, hne, he⟩
          exact ⟨x, Or.inr hx, hne, he⟩
        · rintro ⟨x, hx | hx, hne, he⟩
          · subst hx
            exact absurd he h2
          · exact ⟨x, hx, hne, he⟩

theorem scanSiblings_snd_sound :
    ∀ (sibs : List (List Char)) (n : Int),
      n ∈ (scanSiblings fileName exact atStart stem delim ext sibs).2 →
      ∃ sp ∈ sibs, ∃ ds : List Char,
        dupRegexCapture atStart stem delim ext (path.basename sp) = some ds ∧
        parseIntDec ds = some n
  | [], n, h => absurd h (by simp [scanSiblings])
  | sp :: rest, n, h => by
    by_cases h1 : fileName = path.basename sp
    · rw [scanSiblings_cons_self fileName exact atStart stem delim ext sp rest h1] at h
      obtain ⟨x, hx, hd⟩ := scanSiblings_snd_sound rest n h
      exact ⟨x, List.mem_cons_of_mem sp hx, hd⟩
    · by_cases h2 : path.basename sp = exact
      · rw [scanSiblings_cons_exact fileName exact atStart stem delim ext sp rest h1 h2] at h
        obtain ⟨x, hx, hd⟩ := scanSiblings_snd_sound rest n h
        exact ⟨x, List.mem_cons_of_mem sp hx, hd⟩
      · rw [scanSiblings_cons_other fileName exact atStart stem delim ext sp rest h1 h2] at h
        cases hb : (dupRegexCapture atStart stem delim ext (path.basename sp)).bind parseIntDec with
        | none =>
          rw [hb] at h
          obtain ⟨x, hx, hd⟩ := scanSiblings_snd_sound rest n h
          exact ⟨x, List.mem_cons_of_mem sp hx, hd⟩
        | some m =>
          rw [hb] at h
          have h' : n ∈ m :: (scanSiblings fileName exact atStart stem delim ext rest).2 := h
          rcases List.mem_cons.mp h' with he | hm
          · subst he
            obtain ⟨ds, hcap, hparse⟩ := Option.bind_eq_some.mp hb
            exact ⟨sp, List.mem_cons_self sp rest, ds, hcap, hparse⟩
          · obtain ⟨x, hx, hd⟩ := scanSiblings_snd_sound rest n hm
            exact ⟨x, List.mem_cons_of_mem sp hx, hd⟩

end ScanLemmas

theorem dupRegexCapture_digits {atStart : Bool} {stem delim ext sibling ds : List Char}
    (h : dupRegexCapture atStart stem delim ext sibling = some ds) :
    ds ≠ [] ∧ ds.all isAsciiDigit = true := by
  simp only [dupRegexCapture] at h
  split at h
  · split at h
    · next hcond =>
      obtain ⟨h1, h2, h3⟩ := hcond
      injection h with h4
      subst h4
      exact ⟨h2, h3⟩
    · exact absurd h (by simp)
  · split at h
    · next hcond =>
      obtain ⟨h1, h2, h3⟩ := hcond
      injection h with h4
      subst h4
      exact ⟨h2, h3⟩
    · exact absurd h (by simp)

theorem takeWhile_all_eq (p : Char → Bool) :
    ∀ l : List Char, l.all p = true → l.takeWhile p = l
  | [], _ => rfl
  | a :: l, h => by
    rw [List.all_cons, Bool.and_eq_true] at h
    rw [List.takeWhile_cons_of_pos h.1, takeWhile_all_eq p l h.2]

theorem isAsciiDigit_props {c : Char} (h : isAsciiDigit c = true) :
    isJsWhitespace c = false ∧ c ≠ '-' ∧ c ≠ '+' := by
  rw [isAsciiDigit, Bool.and_eq_true, decide_eq_true_eq, decide_eq_true_eq] at h
  refine ⟨?_, ?_, ?_⟩
  · cases hws : isJsWhitespace c
    · rfl
    · exfalso
      rw [isJsWhitespace] at hws
      simp only [Bool.or_eq_true, beq_iff_eq, Bool.and_eq_true, decide_eq_true_eq] at hws
      omega
  · intro e
    subst e
    have hv : ('-' : Char).toNat = 45 := rfl
    omega
  · intro e
    subst e
    have hv : ('+' : Char).toNat = 43 := rfl
    omega

theorem parseIntDec_digits {ds : List Char} (hne : ds ≠ []) (hall : ds.all isAsciiDigit = true) :
    parseIntDec ds = some (digitsToNat ds : Int) := by
  cases ds with
  | nil => exact absurd rfl hne
  | cons d t =>
    rw [List.all_cons, Bool.and_eq_true] at hall
    obtain ⟨hd, ht⟩ := hall
    obtain ⟨hws, hminus, hplus⟩ := isAsciiDigit_props hd
    have hdrop : (d :: t).dropWhile isJsWhitespace = d :: t :=
      List.dropWhile_cons_of_neg (by simp [hws])
    have htake : (d :: t).takeWhile isAsciiDigit = d :: t :=
      takeWhile_all_eq isAsciiDigit (d :: t)
        (by rw [List.all_cons, Bool.and_eq_true]; exact ⟨hd, ht⟩)
    have hcond : ¬(d = '-' ∨ d = '+') := by
      rintro (e | e)
      · exact hminus e
      · exact hplus e
    simp only [parseIntDec, hdrop, List.headD_cons]
    rw [if_neg hcond, htake, if_neg (show ¬(d :: t = []) by simp), if_neg hminus]

theorem foldl_max_init_le : ∀ (l : List Int) (a : Int), a ≤ l.foldl max a
  | [], a => le_refl a
  | b :: t, a => le_trans (le_max_left a b) (foldl_max_init_le t (max a b))

theorem foldl_max_le_of_mem : ∀ (l : List Int) (a m : Int), m ∈ l → m ≤ l.foldl max a
  | [], _, _, h => absurd h (List.not_mem_nil _)
  | b :: t, a, m, h => by
    rcases List.mem_cons.mp h with h | h
    · subst h
      exact le_trans (le_max_right a m) (foldl_max_init_le t (max a m))
    · exact foldl_max_le_of_mem t (max a b) m h

theorem foldl_max_eq_or_mem : ∀ (l : List Int) (a : Int), l.foldl max a = a ∨ l.foldl max a ∈ l
  | [], _ => Or.inl rfl
  | b :: t, a => by
    rcases foldl_max_eq_or_mem t (max a b) with h | h
    · rcases max_choice a b with h2 | h2
      · exact Or.inl (h.trans h2)
      · exact Or.inr (List.mem_cons.mpr (Or.inl (h.trans h2)))
    · exact Or.inr (List.mem_cons.mpr (Or.inr h))

theorem le_maxIntList {l : List Int} {m : Int} (h : m ∈ l) : m ≤ maxIntList l := by
  cases l with
  | nil => cases h
  | cons b t =>
    rcases List.mem_cons.mp h with h | h
    · subst h
      exact foldl_max_init_le t m
    · exact foldl_max_le_of_mem t b m h

/-- The final name of deduplicateNewName, spelled out (definitional). -/
theorem deduplicateNewName_name_eq (settings : PluginSettings) (newName : List Char)
    (file : TFile) (siblings : List (List Char)) :
    (deduplicateNewName settings newName file siblings).name =
      if (dedupScan settings newName file siblings).1 || settings.dupNumberAlways then
        numberedName settings newName file
          (if (dedupScan settings newName file siblings).2.length > 0 then
            maxIntList (dedupScan settings newName file siblings).2 + 1
          else 1)
      else exactTargetName newName file := rfl

/-- C1: whenever the exact target name occurs among the siblings (the file
itself excluded by name) or always-number is set, the emitted name carries a
number that is 1 when no numbered sibling was collected and the collected
maximum plus one otherwise — strictly above every collected number, so gaps
are never reused. -/
theorem deduplicateNewName_max_plus_one (settings : PluginSettings) (newName : List Char)
    (file : TFile) (siblings : List (List Char))
    (h : (∃ sp ∈ siblings, path.basename sp ≠ file.name ∧
            path.basename sp = exactTargetName newName file) ∨
         settings.dupNumberAlways = true) :
    ∃ n : Int,
      (deduplicateNewName settings newName file siblings).name =
        numberedName settings newName file n ∧
      ((dedupScan settings newName file siblings).2 = [] → n = 1) ∧
      (∀ m ∈ (dedupScan settings newName file siblings).2, m < n) ∧
      ((dedupScan settings newName file siblings).2 ≠ [] →
        n = maxIntList (dedupScan settings newName file siblings).2 + 1) := by
  have hcond : ((dedupScan settings newName file siblings).1 || settings.dupNumberAlways) = true := by
    rcases h with h | h
    · have h1 : (dedupScan settings newName file siblings).1 = true := by
        unfold dedupScan
        exact (scanSiblings_fst_iff file.name (exactTargetName newName file)
          settings.dupNumberAtStart (parseFileName newName).1 settings.dupNumberDelimiter
          (dedupActualExtension newName file) siblings).mpr h
      rw [h1, Bool.true_or]
    · rw [h, Bool.or_true]
  refine ⟨(if (dedupScan settings newName file siblings).2.length > 0 then
      maxIntList (dedupScan settings newName file siblings).2 + 1 else 1), ?_, ?_, ?_, ?_⟩
  · rw [deduplicateNewName_name_eq, if_pos hcond]
  · intro h0
    rw [h0]
    simp
  · intro m hm
    have hnn : (dedupScan settings newName file siblings).2 ≠ [] := List.ne_nil_of_mem hm
    rw [if_pos (List.length_pos.mpr hnn)]
    have := le_maxIntList hm
    omega
  · intro hnn
    rw [if_pos (List.length_pos.mpr hnn)]

/-- C1, witness: siblings foo.png, foo-1.png, foo-3.png with candidate
foo.png under the suffix dash policy give foo-4.png. -/
theorem deduplicateNewName_max_plus_one_witness :
    (deduplicateNewName DEFAULT_SETTINGS ("foo.png".toList)
        { name := "bar.png".toList, extension := "png".toList }
        ["foo.png".toList, "foo-1.png".toList, "foo-3.png".toList]).name = "foo-4.png".toList ∧
    (∃ n : Int,
      (deduplicateNewName DEFAULT_SETTINGS ("foo.png".toList)
          { name := "bar.png".toList, extension := "png".toList }
          ["foo.png".toList, "foo-1.png".toList, "foo-3.png".toList]).name =
        numberedName DEFAULT_SETTINGS ("foo.png".toList)
          { name := "bar.png".toList, extension := "png".toList } n ∧
      ((dedupScan DEFAULT_SETTINGS ("foo.png".toList)
          { name := "bar.png".toList, extension := "png".toList }
          ["foo.png".toList, "foo-1.png".toList, "foo-3.png".toList]).2 = [] → n = 1) ∧
      (∀ m ∈ (dedupScan DEFAULT_SETTINGS ("foo.png".toList)
          { name := "bar.png".toList, extension := "png".toList }
          ["foo.png".toList, "foo-1.png".toList, "foo-3.png".toList]).2, m < n) ∧
      ((dedupScan DEFAULT_SETTINGS ("foo.png".toList)
          { name := "bar.png".toList, extension := "png".toList }
          ["foo.png".toList, "foo-1.png".toList, "foo-3.png".toList]).2 ≠ [] →
        n = maxIntList (dedupScan DEFAULT_SETTINGS ("foo.png".toList)
            { name := "bar.png".toList, extension := "png".toList }
            ["foo.png".toList, "foo-1.png".toList, "foo-3.png".toList]).2 + 1)) :=
  ⟨by decide,
   deduplicateNewName_max_plus_one DEFAULT_SETTINGS ("foo.png".toList)
     { name := "bar.png".toList, extension := "png".toList }
     ["foo.png".toList, "foo-1.png".toList, "foo-3.png".toList]
     (Or.inl (by decide))⟩

/-- C2: when no sibling other than the file itself (compared by name) equals
the exact target name and always-number is off, the exact target name is
returned unchanged. -/
theorem deduplicateNewName_no_collision (settings : PluginSettings) (newName : List Char)
    (file : TFile) (siblings : List (List Char))
    (halways : settings.dupNumberAlways = false)
    (hno : ∀ sp ∈ siblings, path.basename sp ≠ file.name →
      path.basename sp ≠ exactTargetName newName file) :
    (deduplicateNewName settings newName file siblings).name =
      exactTargetName newName file := by
  have hf : (dedupScan settings newName file siblings).1 = false := by
    cases hb : (dedupScan settings newName file siblings).1
    · rfl
    · exfalso
      unfold dedupScan at hb
      obtain ⟨sp, hsp, hne, he⟩ := (scanSiblings_fst_iff file.name
        (exactTargetName newName file) settings.dupNumberAtStart (parseFileName newName).1
        settings.dupNumberDelimiter (dedupActualExtension newName file) siblings).mp hb
      exact hno sp hsp hne he
  rw [deduplicateNewName_name_eq, hf, halways, if_neg (by simp)]

/-- C2, witness: no siblings and candidate foo.png give foo.png. -/
theorem deduplicateNewName_no_collision_witness :
    (deduplicateNewName DEFAULT_SETTINGS ("foo.png".toList)
        { name := "bar.png".toList, extension := "png".toList } []).name =
      exactTargetName ("foo.png".toList)
        { name := "bar.png".toList, extension := "png".toList } ∧
    exactTargetName ("foo.png".toList)
      { name := "bar.png".toList, extension := "png".toList } = "foo.png".toList :=
  ⟨deduplicateNewName_no_collision DEFAULT_SETTINGS ("foo.png".toList)
      { name := "bar.png".toList, extension := "png".toList } [] rfl
      (by intro sp h; cases h),
   by decide⟩

/-- C8: every number that the dedup scan collects comes from a successful
integer parse of the digit group captured by the duplicate-name regex on
some sibling — the capture is a non-empty all-digit string, its parse never
yields the NaN marker, and the collected value is non-negative, so the
maximum is always a genuine number. -/
theorem dedup_collected_numbers_parsed (settings : PluginSettings) (newName : List Char)
    (file : TFile) (siblings : List (List Char)) :
    ∀ n ∈ (dedupScan settings newName file siblings).2,
      0 ≤ n ∧ ∃ sp ∈ siblings, ∃ ds : List Char,
        dupRegexCapture settings.dupNumberAtStart (parseFileName newName).1
          settings.dupNumberDelimiter (dedupActualExtension newName file)
          (path.basename sp) = some ds ∧
        ds ≠ [] ∧ ds.all isAsciiDigit = true ∧ parseIntDec ds = some n := by
  intro n hn
  unfold dedupScan at hn
  obtain ⟨sp, hsp, ds, hcap, hparse⟩ := scanSiblings_snd_sound file.name
    (exactTargetName newName file) settings.dupNumberAtStart (parseFileName newName).1
    settings.dupNumberDelimiter (dedupActualExtension newName file) siblings n hn
  obtain ⟨hne, hall⟩ := dupRegexCapture_digits hcap
  have hval := parseIntDec_digits hne hall
  rw [hparse] at hval
  injection hval with hval
  constructor
  · rw [hval]
    exact Int.natCast_nonneg (digitsToNat ds)
  · exact ⟨sp, hsp, ds, hcap, hne, hall, hparse⟩

/-- C8, witness at the single sibling foo-3.png, collected number 3. -/
theorem dedup_collected_numbers_parsed_witness :
    0 ≤ (3 : Int) ∧ ∃ sp ∈ ["foo-3.png".toList], ∃ ds : List Char,
      dupRegexCapture DEFAULT_SETTINGS.dupNumberAtStart (parseFileName ("foo.png".toList)).1
        DEFAULT_SETTINGS.dupNumberDelimiter
        (dedupActualExtension ("foo.png".toList)
          { name := "bar.png".toList, extension := "png".toList })
        (path.basename sp) = some ds ∧
      ds ≠ [] ∧ ds.all isAsciiDigit = true ∧ parseIntDec ds = some 3 :=
  dedup_collected_numbers_parsed DEFAULT_SETTINGS ("foo.png".toList)
    { name := "bar.png".toList, extension := "png".toList }
    ["foo-3.png".toList] 3 (by decide)

/-- C10: the name returned by deduplicateNewName always ends in a dot
followed by the parsed extension of the input name when that is non-empty
and otherwise the file's own current extension, and the returned stem and
extension fields are the parsed stem and that same extension. -/
theorem deduplicateNewName_name_shape (settings : PluginSettings) (newName : List Char)
    (file : TFile) (siblings : List (List Char)) :
    (∃ pre : List Char,
      (deduplicateNewName settings newName file siblings).name =
        pre ++ '.' :: (if (parseFileName newName).2 = [] then file.extension
          else (parseFileName newName).2)) ∧
    (deduplicateNewName settings newName file siblings).stem = (parseFileName newName).1 ∧
    (deduplicateNewName settings newName file siblings).extension =
      (if (parseFileName newName).2 = [] then file.extension
        else (parseFileName newName).2) := by
  refine ⟨?_, rfl, rfl⟩
  rw [deduplicateNewName_name_eq]
  by_cases hc : ((dedupScan settings newName file siblings).1 || settings.dupNumberAlways) = true
  · rw [if_pos hc]
    by_cases hs : settings.dupNumberAtStart = true
    · refine ⟨intToChars (if (dedupScan settings newName file siblings).2.length > 0 then
          maxIntList (dedupScan settings newName file siblings).2 + 1 else 1) ++
          settings.dupNumberDelimiter ++ (parseFileName newName).1, ?_⟩
      simp [numberedName, dedupActualExtension, hs, List.append_assoc]
    · refine ⟨(parseFileName newName).1 ++ settings.dupNumberDelimiter ++
          intToChars (if (dedupScan settings newName file siblings).2.length > 0 then
            maxIntList (dedupScan settings newName file siblings).2 + 1 else 1), ?_⟩
      simp [numberedName, dedupActualExtension, hs, List.append_assoc]
  · rw [if_neg hc]
    refine ⟨(parseFileName newName).1, ?_⟩
    simp [exactTargetName, dedupActualExtension]
